import Mathlib

/-
Verification of the memory subsystem of the AI Dungeon Master project
(src/memory.py, with the remember-command handler from src/app.py).

Python strings are modelled as `List Char`; the JSON-typed values that can
appear in a persisted note record are modelled by `PyVal` (None, int, str),
with `Option PyVal` for a possibly missing dict key.  Machine text helpers
(lower, strip, substring test, whitespace split) mirror the corresponding
`str` methods on the ASCII texts this program uses.
-/

namespace DungeonMemory

/-- ASCII case folding, mirroring `str.lower` on the ASCII texts used here. -/
def toLowerL (s : List Char) : List Char := s.map Char.toLower

/-- Whitespace test used by `str.strip` / `str.split`. -/
def isWs (c : Char) : Bool := c.isWhitespace

/-- Python `str.strip()`: drop leading and trailing whitespace. -/
def stripL (s : List Char) : List Char :=
  ((s.dropWhile isWs).reverse.dropWhile isWs).reverse

/-- Python substring test `needle in hay`. -/
def containsSub : List Char → List Char → Bool
  | [], needle => needle.isEmpty
  | c :: rest, needle => needle.isPrefixOf (c :: rest) || containsSub rest needle

/-- Worker for `splitWs`: `cur` holds the reversed characters of the word
currently being read. -/
def splitWsAux : List Char → List Char → List (List Char)
  | [], cur => if cur.isEmpty then [] else [cur.reverse]
  | c :: rest, cur =>
    if isWs c then
      if cur.isEmpty then splitWsAux rest [] else cur.reverse :: splitWsAux rest []
    else splitWsAux rest (c :: cur)

/-- Python `str.split()` with no argument: split on whitespace runs,
producing no empty tokens. -/
def splitWs (s : List Char) : List (List Char) := splitWsAux s []

/-- A JSON-typed Python value as it can appear in a persisted record field. -/
inductive PyVal : Type
  | vnone : PyVal
  | vint : Int → PyVal
  | vstr : List Char → PyVal
deriving DecidableEq

/-- A long-term note record (`{note, tags, priority, turn}`); a field of value
`none` models a missing dict key. -/
structure NoteRec : Type where
  note : Option PyVal
  tags : List (List Char)
  priority : Option PyVal
  turn : Option PyVal
deriving DecidableEq

/-- A short-term turn record `{user, dm}` (memory.py `add_turn`). -/
structure Turn : Type where
  user : List Char
  dm : List Char
deriving DecidableEq

/-- Digit-string value, `none` when the characters are not all digits
(or the string is empty). -/
def digitsVal (ds : List Char) : Option Nat :=
  if ds.isEmpty then none
  else if ds.all Char.isDigit then
    some (ds.foldl (fun a c => a * 10 + (c.toNat - 48)) 0)
  else none

/-- Python `int(s)` on a string: strip whitespace, optional sign, digits;
`none` models the raised `ValueError`. -/
def parseIntL (s : List Char) : Option Int :=
  match stripL s with
  | '+' :: ds => (digitsVal ds).map (fun n => (n : Int))
  | '-' :: ds => (digitsVal ds).map (fun n => -(n : Int))
  | ds => (digitsVal ds).map (fun n => (n : Int))

/-- Python `int(r.get(key, d))`: a missing key coerces the default,
a stored value coerces or fails (`none` models the raised exception). -/
def pyToInt : Option PyVal → Int → Option Int
  | none, d => some d
  | some PyVal.vnone, _ => none
  | some (PyVal.vint n), _ => some n
  | some (PyVal.vstr s), _ => parseIntL s

/-- memory.py `to_int(x, default)` (inside `recall_relevant`):
`int(x)` with the default returned on any exception. -/
def toIntD (v : Option PyVal) (d : Int) : Int := (pyToInt v d).getD d

/-- Python `str(n)` for an int. -/
def intStr (n : Int) : List Char := (toString n).data

/-- memory.py `_normalize_records`, priority branch:
`if not isinstance(r.get("priority"), int): try int(r.get("priority", 1)) except: 1`.
Returns the new field value and whether the record was touched. -/
def normPriority : Option PyVal → Option PyVal × Bool
  | some (PyVal.vint n) => (some (PyVal.vint n), false)
  | v => (some (PyVal.vint ((pyToInt v 1).getD 1)), true)

/-- memory.py `_normalize_records`, turn branch (default 0). -/
def normTurn : Option PyVal → Option PyVal × Bool
  | some (PyVal.vint n) => (some (PyVal.vint n), false)
  | v => (some (PyVal.vint ((pyToInt v 0).getD 0)), true)

/-- memory.py `_normalize_records`, note branch:
`n = r.get("note"); if n is not None and not isinstance(n, str): r["note"] = str(n)`.
A missing or `None` note is left untouched. -/
def normNote : Option PyVal → Option PyVal × Bool
  | some (PyVal.vint n) => (some (PyVal.vstr (intStr n)), true)
  | v => (v, false)

/-- One pass of `_normalize_records` over a single record, returning the
updated record and whether anything changed. -/
def normRec (r : NoteRec) : NoteRec × Bool :=
  (⟨(normNote r.note).1, r.tags, (normPriority r.priority).1, (normTurn r.turn).1⟩,
   (normPriority r.priority).2 || (normTurn r.turn).2 || (normNote r.note).2)

/-- memory.py `_normalize_records`: normalize every record; the Bool is the
`changed` flag that triggers the single re-persist of the full set. -/
def normalize_records (recs : List NoteRec) : List NoteRec × Bool :=
  (recs.map (fun r => (normRec r).1), recs.any (fun r => (normRec r).2))

/-- `True` when the record's note field is a string (`isinstance(n, str)`). -/
def isStrNote (r : NoteRec) : Bool :=
  match r.note with
  | some (PyVal.vstr _) => true
  | _ => false

/-- `True` when the note field is a string, missing, or `None` — the shapes on
which the Python accessors `(r.get("note") or "")...` run without raising. -/
def strNoteB (r : NoteRec) : Bool :=
  match r.note with
  | some (PyVal.vint _) => false
  | _ => true

/-- Python `(rec.get("note") or "")` on a record whose note is a string,
missing, or `None`. -/
def noteOrEmpty (r : NoteRec) : List Char :=
  match r.note with
  | some (PyVal.vstr s) => s
  | _ => []

/-- memory.py `add_turn`: append one `{user, dm}` record to the history. -/
def add_turn (turns : List Turn) (user dm : List Char) : List Turn :=
  turns ++ [⟨user, dm⟩]

/-- Python slice `xs[-w:]`: for `w = 0` this is the whole list, otherwise the
last `min w xs.length` elements. -/
def lastSlice (w : Nat) (xs : List Turn) : List Turn :=
  if w = 0 then xs else xs.drop (xs.length - w)

/-- The two rendered lines contributed by one turn record. -/
def turnLines (t : Turn) : List (List Char) :=
  ["Player: ".data ++ t.user, "DM: ".data ++ t.dm]

/-- The line list built by memory.py `get_short_context` over
`self.turns[-self.short_window:]`. -/
def contextLines (turns : List Turn) (w : Nat) : List (List Char) :=
  (lastSlice w turns).flatMap turnLines

/-- memory.py `get_short_context`: `"\n".join(lines)`. -/
def get_short_context (turns : List Turn) (w : Nat) : List Char :=
  List.intercalate ("\n".data) (contextLines turns w)

/-- memory.py `add_consistency_hint`:
`if hint and hint not in self.hints: self.hints.append(hint)`. -/
def add_consistency_hint (hint : List Char) (hints : List (List Char)) : List (List Char) :=
  if hint ≠ [] ∧ hint ∉ hints then hints ++ [hint] else hints

/-- The block rendered by `pop_consistency_hints`:
`"Consistency hints:\n" + "\n".join(f"- {h}" ...)`. -/
def renderHints (hs : List (List Char)) : List Char :=
  "Consistency hints:\n".data ++
    List.intercalate ("\n".data) (hs.map (fun h => "- ".data ++ h))

/-- memory.py `pop_consistency_hints`: pop up to two hints from the front of
the queue; returns the rendered block and the remaining queue. -/
def pop_consistency_hints (hints : List (List Char)) : List Char × List (List Char) :=
  if hints.isEmpty then ([], hints)
  else (renderHints (hints.take 2), hints.drop 2)

/-- An operation on the hint queue (add or destructive drain). -/
inductive HOp : Type
  | add : List Char → HOp
  | drain : HOp

/-- Apply one hint-queue operation to the queue state. -/
def applyHint (hints : List (List Char)) : HOp → List (List Char)
  | HOp.add h => add_consistency_hint h hints
  | HOp.drain => (pop_consistency_hints hints).2

/-- Run a sequence of hint-queue operations from the empty queue. -/
def runHints (ops : List HOp) : List (List Char) :=
  ops.foldl applyHint []

/-- memory.py `MemoryManager.KEY_TAGS`: the four topical keyword categories
(quest, item, ally, lore), in dict insertion order. -/
def KEY_TAGS : List (List (List Char)) :=
  [ ["quest".data, "mission".data, "task".data, "contract".data],
    ["sword".data, "key".data, "map".data, "feather".data, "ring".data,
     "amulet".data, "potion".data, "lantern".data, "gem".data, "scroll".data],
    ["joins you".data, "agrees to help".data, "companion".data,
     "party member".data, "ally".data],
    ["prophecy".data, "legend".data, "ancient".data, "ritual".data,
     "temple".data, "kingdom".data, "order".data] ]

/-- memory.py `MemoryManager._priority`: base 1, +2 per matching category,
+3 for a literal "remember:" substring, capped at 5. -/
def priorityScore (text : List Char) : Nat :=
  let t := toLowerL text
  let s := KEY_TAGS.foldl (fun acc ws => if ws.any (fun w => containsSub t w) then acc + 2 else acc) 1
  let s2 := if containsSub t ("remember:".data) then s + 3 else s
  min s2 5

/-- memory.py `pin_note`: unconditionally append the pinned record
`{"note": note, "tags": ["HIGH"], "priority": 5, "turn": -1}` to the
long-term store (the persisted file mirrors the returned store). -/
def pin_note (note : List Char) (store : List NoteRec) : List NoteRec :=
  store ++ [⟨some (PyVal.vstr note), ["HIGH".data], some (PyVal.vint 5), some (PyVal.vint (-1))⟩]

/-- Python `text.split(":", 1)[1]`: everything after the first colon. -/
def afterColon (text : List Char) : List Char :=
  (text.dropWhile (fun c => c ≠ ':')).drop 1

/-- app.py `remember:` command handler (lines 123-130): when the input starts
with "remember:" (case-insensitively), strip the text after the colon and pin
it only when nonempty; otherwise only a usage warning is shown and the store
is untouched. -/
def remember_command (text : List Char) (store : List NoteRec) : List NoteRec :=
  if List.isPrefixOf ("remember:".data) (toLowerL text) then
    if stripL (afterColon text) ≠ [] then pin_note (stripL (afterColon text)) store
    else store
  else store

/-- Non-strict lexicographic order on the (score, turn) ranking key used by
`recall_relevant` (Python tuple comparison). -/
def kLeB (a b : Int × Int) : Bool :=
  decide (a.1 < b.1) || (decide (a.1 = b.1) && decide (a.2 ≤ b.2))

/-- memory.py `recall_relevant`, Lightweight `score(rec)`: integer-coerced
priority (default 1), +1 when a lowered NPC-focus token occurs in the lowered
note text, +1 when a whitespace token of the lowered cue occurs in it; the
second component is the integer-coerced turn (default 0) used as tie-break. -/
def rkey (cue : List Char) (focus : List (List Char)) (r : NoteRec) : Int × Int :=
  let n := toLowerL (noteOrEmpty r)
  let s1 := toIntD r.priority 1
  let s2 := if (focus.map toLowerL).any (fun w => !w.isEmpty && containsSub n w) then s1 + 1 else s1
  let s3 := if (splitWs (toLowerL cue)).any (fun w => !w.isEmpty && containsSub n w) then s2 + 1 else s2
  (s3, toIntD r.turn 0)

/-- Stable descending insertion: `x` is placed before the first element whose
key is ≤ `x`'s key, so earlier elements stay first among equal keys. -/
def insertDesc (key : NoteRec → Int × Int) (x : NoteRec) : List NoteRec → List NoteRec
  | [] => [x]
  | y :: ys => if kLeB (key y) (key x) then x :: y :: ys else y :: insertDesc key x ys

/-- Stable sort, descending in the key — the behaviour of Python
`sorted(pool, key=score, reverse=True)` (Timsort is stable and `reverse=True`
keeps equal elements in original order, which determines the result uniquely). -/
def sortByKeyDesc (key : NoteRec → Int × Int) : List NoteRec → List NoteRec
  | [] => []
  | x :: xs => insertDesc key x (sortByKeyDesc key xs)

/-- memory.py `recall_relevant` pool:
`[r for r in self.long_memory[-200:] if (r.get("note") or "").strip()]`. -/
def poolOf (mem : List NoteRec) : List NoteRec :=
  (mem.drop (mem.length - 200)).filter (fun r => !(stripL (noteOrEmpty r)).isEmpty)

/-- memory.py `recall_relevant`, Lightweight branch:
`sorted(pool, key=score, reverse=True)[:k]`. -/
def recall_ranked (mem : List NoteRec) (cue : List Char) (focus : List (List Char))
    (k : Nat) : List NoteRec :=
  (sortByKeyDesc (rkey cue focus) (poolOf mem)).take k

/-- memory.py `recall_relevant` rendered result: header plus one bullet per
ranked record, or the empty string when nothing was ranked. -/
def recall_relevant (mem : List NoteRec) (cue : List Char) (focus : List (List Char))
    (k : Nat) : List Char :=
  let bullets := (recall_ranked mem cue focus k).map (fun r => "- ".data ++ noteOrEmpty r)
  if bullets.isEmpty then []
  else "Relevant notes:".data ++ "\n".data ++ List.intercalate ("\n".data) bullets

/-- The dedup key of `compact_long_memory`:
`(rec.get("note") or "").strip().lower()`. -/
def noteKey (r : NoteRec) : List Char := toLowerL (stripL (noteOrEmpty r))

/-- memory.py `compact_long_memory` loop over `reversed(self.long_memory)`:
keep a record when its key is nonblank and unseen; break as soon as the kept
list reaches `m` (the break test runs on every iteration). -/
def compactLoop (m : Nat) : List NoteRec → List (List Char) → List NoteRec → List NoteRec
  | [], _, acc => acc
  | r :: rest, seen, acc =>
    if noteKey r ≠ [] ∧ noteKey r ∉ seen then
      if m ≤ (acc ++ [r]).length then acc ++ [r]
      else compactLoop m rest (noteKey r :: seen) (acc ++ [r])
    else
      if m ≤ acc.length then acc else compactLoop m rest seen acc

/-- memory.py `compact_long_memory`: early return on an empty store, else run
the loop over the reversed store and reverse the kept records back to
chronological order. -/
def compact_long_memory (store : List NoteRec) (maxNotes : Nat) : List NoteRec :=
  if store.isEmpty then store
  else (compactLoop maxNotes store.reverse [] []).reverse

/-- First-occurrence dedup on nonblank note keys, with `seen` the keys already
taken; declarative counterpart of the compaction loop. -/
def dedupNewestAux : List NoteRec → List (List Char) → List NoteRec
  | [], _ => []
  | r :: rest, seen =>
    if noteKey r ≠ [] ∧ noteKey r ∉ seen then r :: dedupNewestAux rest (noteKey r :: seen)
    else dedupNewestAux rest seen

/-- Keep, for each nonblank note key, the first record carrying it (on the
reversed store this is the newest occurrence). -/
def dedupNewest (l : List NoteRec) : List NoteRec := dedupNewestAux l []

/-- Folding "+2 on a predicate hit" over a list counts the hits. -/
theorem foldl_addTwo_eq (l : List (List (List Char))) (p : List (List Char) → Bool) (init : Nat) :
    l.foldl (fun acc ws => if p ws then acc + 2 else acc) init = init + 2 * l.countP p := by
  induction l generalizing init with
  | nil => simp
  | cons a t ih =>
    simp only [List.foldl_cons, List.countP_cons, ih]
    by_cases h : p a = true
    · simp [h]
      omega
    · simp [h]

/-- Normalizing an already-normalized priority field changes nothing. -/
theorem normPriority_idem (v : Option PyVal) :
    normPriority (normPriority v).1 = ((normPriority v).1, false) := by
  rcases v with _ | pv
  · rfl
  · rcases pv with _ | n | s <;> rfl

/-- Normalizing an already-normalized turn field changes nothing. -/
theorem normTurn_idem (v : Option PyVal) :
    normTurn (normTurn v).1 = ((normTurn v).1, false) := by
  rcases v with _ | pv
  · rfl
  · rcases pv with _ | n | s <;> rfl

/-- Normalizing an already-normalized note field changes nothing. -/
theorem normNote_idem (v : Option PyVal) :
    normNote (normNote v).1 = ((normNote v).1, false) := by
  rcases v with _ | pv
  · rfl
  · rcases pv with _ | n | s <;> rfl

/-- Re-normalizing a normalized record changes nothing and reports no change. -/
theorem normRec_idem (r : NoteRec) : normRec (normRec r).1 = ((normRec r).1, false) := by
  obtain ⟨n, tg, p, t⟩ := r
  simp [normRec, normPriority_idem, normTurn_idem, normNote_idem]

/-- C4: for every text input, `_priority` returns an integer in [1, 5] equal to
base 1, plus 2 per topical category of `KEY_TAGS` with a keyword occurring in
the lowered text, plus 3 when "remember:" occurs in it, capped at 5.  The
function is pure and deterministic by construction. -/
theorem C4_theorem (text : List Char) :
    1 ≤ priorityScore text ∧ priorityScore text ≤ 5 ∧
    priorityScore text =
      min (1 + 2 * KEY_TAGS.countP (fun ws => ws.any (fun w => containsSub (toLowerL text) w))
            + (if containsSub (toLowerL text) ("remember:".data) then 3 else 0)) 5 := by
  have heq : priorityScore text =
      min (1 + 2 * KEY_TAGS.countP (fun ws => ws.any (fun w => containsSub (toLowerL text) w))
            + (if containsSub (toLowerL text) ("remember:".data) then 3 else 0)) 5 := by
    simp only [priorityScore]
    rw [foldl_addTwo_eq]
    by_cases h : containsSub (toLowerL text) ("remember:".data) = true <;> simp [h]
  refine ⟨?_, ?_, heq⟩ <;> rw [heq] <;>
    by_cases h : containsSub (toLowerL text) ("remember:".data) = true <;> simp [h]

/-- C9: normalization is idempotent — applying `_normalize_records` to its own
output returns the same record list, and the second pass reports `changed =
false`, so nothing is re-persisted. -/
theorem C9_theorem (recs : List NoteRec) :
    normalize_records (normalize_records recs).1 = ((normalize_records recs).1, false) := by
  have h1 : ∀ x : NoteRec, (normRec (normRec x).1).1 = (normRec x).1 :=
    fun x => by rw [normRec_idem x]
  have h2 : ∀ x : NoteRec, (normRec (normRec x).1).2 = false :=
    fun x => by rw [normRec_idem x]
  unfold normalize_records
  simp [List.map_map, Function.comp, h1, h2, List.any_map]

/-- C3 counterexample: a record whose note field is `None` passes through
`_normalize_records` with the note still `None`, so not every record's note
field is a string afterwards. -/
theorem C3_counterexample :
    ((normalize_records
        [⟨some PyVal.vnone, [], some (PyVal.vint 3), some (PyVal.vint 0)⟩]).1.all
      isStrNote) = false := by decide

/-- C3 (amended): after `_normalize_records` every record's priority and turn
fields are integers (with fallback `priority=1`, `turn=0` when coercion
fails), and every record's note field is a string unless it was missing or
`None`, in which case it is left unchanged. -/
theorem C3_theorem :
    (∀ (recs : List NoteRec), ∀ r ∈ (normalize_records recs).1,
        (∃ n, r.priority = some (PyVal.vint n)) ∧ (∃ n, r.turn = some (PyVal.vint n)) ∧
        (isStrNote r = true ∨ r.note = none ∨ r.note = some PyVal.vnone)) ∧
    normPriority (some PyVal.vnone) = (some (PyVal.vint 1), true) ∧
    normTurn (some PyVal.vnone) = (some (PyVal.vint 0), true) := by
  refine ⟨?_, rfl, rfl⟩
  intro recs r hr
  simp only [normalize_records, List.mem_map] at hr
  obtain ⟨r0, -, rfl⟩ := hr
  obtain ⟨n0, tg, p, t⟩ := r0
  simp only [normRec]
  refine ⟨?_, ?_, ?_⟩
  · rcases p with _ | pv
    · exact ⟨_, rfl⟩
    · rcases pv with _ | n | s <;> exact ⟨_, rfl⟩
  · rcases t with _ | pv
    · exact ⟨_, rfl⟩
    · rcases pv with _ | n | s <;> exact ⟨_, rfl⟩
  · rcases n0 with _ | pv
    · right; left; rfl
    · rcases pv with _ | n | s
      · right; right; rfl
      · left; rfl
      · left; rfl

/-- C3 witness: a concrete record with a `None` priority and a string turn is
normalized to integer fields with a string note. -/
theorem C3_witness :
    (∃ n, (⟨some (PyVal.vstr ("x".data)), [], some (PyVal.vint 1),
            some (PyVal.vint 7)⟩ : NoteRec).priority = some (PyVal.vint n)) ∧
    (∃ n, (⟨some (PyVal.vstr ("x".data)), [], some (PyVal.vint 1),
            some (PyVal.vint 7)⟩ : NoteRec).turn = some (PyVal.vint n)) ∧
    (isStrNote (⟨some (PyVal.vstr ("x".data)), [], some (PyVal.vint 1),
            some (PyVal.vint 7)⟩ : NoteRec) = true ∨
      (⟨some (PyVal.vstr ("x".data)), [], some (PyVal.vint 1),
            some (PyVal.vint 7)⟩ : NoteRec).note = none ∨
      (⟨some (PyVal.vstr ("x".data)), [], some (PyVal.vint 1),
            some (PyVal.vint 7)⟩ : NoteRec).note = some PyVal.vnone) :=
  C3_theorem.1
    [⟨some (PyVal.vstr ("x".data)), [], some PyVal.vnone, some (PyVal.vstr ("7".data))⟩]
    ⟨some (PyVal.vstr ("x".data)), [], some (PyVal.vint 1), some (PyVal.vint 7)⟩
    (by decide)

/-- C2 counterexample: with window size 0 and one stored turn, the rendered
context holds one full turn-pair, not `min(N, 0) = 0` pairs — the Python slice
`turns[-0:]` is the whole history. -/
theorem C2_counterexample :
    ¬ ((contextLines [(⟨"a".data, "b".data⟩ : Turn)] 0).length =
        2 * min (List.length [(⟨"a".data, "b".data⟩ : Turn)]) 0) := by decide

/-- C2 (amended): for every window size W ≥ 1, `get_short_context` renders
exactly `min(N, W)` turn-pairs as alternating Player/DM lines, oldest first
(the last `min(N, W)` turns of the history in order), and returns the empty
string when no turns exist; the function never mutates the turn history (it
is modelled as a pure function of the history).  For W = 0 the code renders
all N pairs instead. -/
theorem C2_theorem (turns : List Turn) (w : Nat) (hw : 1 ≤ w) :
    contextLines turns w = (turns.drop (turns.length - w)).flatMap turnLines ∧
    (contextLines turns w).length = 2 * min turns.length w ∧
    get_short_context [] w = [] := by
  have hw0 : w ≠ 0 := by omega
  have hlen : ∀ l : List Turn, (l.flatMap turnLines).length = 2 * l.length := by
    intro l
    induction l with
    | nil => rfl
    | cons t ts ih =>
      simp only [List.flatMap_cons, turnLines, List.length_append, List.length_cons, ih]
      simp
      omega
  refine ⟨?_, ?_, ?_⟩
  · simp [contextLines, lastSlice, hw0]
  · simp only [contextLines, lastSlice, hw0, if_false, hlen, List.length_drop]
    omega
  · simp [get_short_context, contextLines, lastSlice, hw0, List.intercalate]

/-- C2 witness: one stored turn, window 1. -/
theorem C2_witness :
    contextLines [(⟨"a".data, "b".data⟩ : Turn)] 1 =
      (List.drop (List.length [(⟨"a".data, "b".data⟩ : Turn)] - 1)
        [(⟨"a".data, "b".data⟩ : Turn)]).flatMap turnLines ∧
    (contextLines [(⟨"a".data, "b".data⟩ : Turn)] 1).length =
      2 * min (List.length [(⟨"a".data, "b".data⟩ : Turn)]) 1 ∧
    get_short_context [] 1 = [] :=
  C2_theorem [(⟨"a".data, "b".data⟩ : Turn)] 1 (by decide)

/-- C1 counterexample: `pin_note` applied to the empty note text (which is
empty after trimming) on an empty store does append a record, so the pin
operation itself is not a no-op for empty input. -/
theorem C1_counterexample : ¬ (pin_note [] [] = ([] : List NoteRec)) := by decide

/-- C1 (amended): `pin_note` itself appends (and persists) a pinned record
unconditionally — also for note text that is empty after trimming; the silent
no-op for empty input is implemented by the caller, the `remember:` command
handler, which strips the text after the colon and leaves the store untouched
(showing only a usage warning) when it is empty. -/
theorem C1_theorem (note text : List Char) (store : List NoteRec)
    (hpre : List.isPrefixOf ("remember:".data) (toLowerL text) = true)
    (hempty : stripL (afterColon text) = []) :
    (pin_note note store).length = store.length + 1 ∧
    remember_command text store = store := by
  constructor
  · simp [pin_note]
  · simp [remember_command, hpre, hempty]

/-- C1 witness: the input "remember:   " is a remember command whose note part
trims to empty, and pinning a concrete note grows the store by one. -/
theorem C1_witness :
    (pin_note ("x".data) []).length = List.length ([] : List NoteRec) + 1 ∧
    remember_command ("remember:   ".data) [] = [] :=
  C1_theorem ("x".data) ("remember:   ".data) [] (by decide) (by decide)

/-- Both hint-queue operations preserve the no-duplicates property. -/
theorem nodup_applyHint (hs : List (List Char)) (op : HOp) (h : hs.Nodup) :
    (applyHint hs op).Nodup := by
  cases op with
  | add x =>
    simp only [applyHint, add_consistency_hint]
    split
    · rename_i hc
      refine List.Nodup.append h (List.nodup_singleton x) ?_
      intro a ha
      simp only [List.mem_singleton]
      rintro rfl
      exact hc.2 ha
    · exact h
  | drain =>
    simp only [applyHint, pop_consistency_hints]
    split
    · exact h
    · exact List.Nodup.sublist (List.drop_sublist _ _) h

/-- C6: the hint queue is FIFO with a destructive drain of two — after adding
three distinct nonempty hints A, B, C in order (nonempty and distinct because
`add_consistency_hint` drops falsy and duplicate hints), one drain returns the
block listing A then B and leaves [C]; draining again returns the block for C
alone; draining an empty queue returns the empty string. -/
theorem C6_theorem (a b c : List Char)
    (ha : a ≠ []) (hb : b ≠ []) (hc : c ≠ [])
    (hab : a ≠ b) (hac : a ≠ c) (hbc : b ≠ c) :
    add_consistency_hint c (add_consistency_hint b (add_consistency_hint a [])) = [a, b, c] ∧
    pop_consistency_hints [a, b, c] = (renderHints [a, b], [c]) ∧
    renderHints [a, b] =
      "Consistency hints:\n".data ++ ("- ".data ++ a) ++ "\n".data ++ ("- ".data ++ b) ∧
    pop_consistency_hints [c] = (renderHints [c], []) ∧
    renderHints [c] = "Consistency hints:\n".data ++ ("- ".data ++ c) ∧
    pop_consistency_hints ([] : List (List Char)) = ([], ([] : List (List Char))) := by
  have s1 : add_consistency_hint a [] = [a] := by
    rw [add_consistency_hint, if_pos ⟨ha, by simp⟩]
    rfl
  have s2 : add_consistency_hint b [a] = [a, b] := by
    rw [add_consistency_hint,
      if_pos ⟨hb, by simp only [List.mem_singleton]; exact fun h => hab h.symm⟩]
    rfl
  have s3 : add_consistency_hint c [a, b] = [a, b, c] := by
    have hcm : c ∉ [a, b] := by
      simp only [List.mem_cons, List.not_mem_nil, or_false, not_or]
      exact ⟨fun h => hac h.symm, fun h => hbc h.symm⟩
    rw [add_consistency_hint, if_pos ⟨hc, hcm⟩]
    rfl
  refine ⟨by rw [s1, s2, s3], by simp [pop_consistency_hints], ?_,
    by simp [pop_consistency_hints], ?_, rfl⟩
  · simp [renderHints, List.intercalate, List.intersperse, List.append_assoc]
  · simp [renderHints, List.intercalate, List.intersperse]

/-- C6 witness: the scenario at the concrete hints "a", "b", "c". -/
theorem C6_witness :
    add_consistency_hint ("c".data)
        (add_consistency_hint ("b".data) (add_consistency_hint ("a".data) [])) =
      [("a".data), ("b".data), ("c".data)] ∧
    pop_consistency_hints [("a".data), ("b".data), ("c".data)] =
      (renderHints [("a".data), ("b".data)], [("c".data)]) ∧
    renderHints [("a".data), ("b".data)] =
      "Consistency hints:\n".data ++ ("- ".data ++ "a".data) ++ "\n".data ++
        ("- ".data ++ "b".data) ∧
    pop_consistency_hints [("c".data)] = (renderHints [("c".data)], []) ∧
    renderHints [("c".data)] = "Consistency hints:\n".data ++ ("- ".data ++ "c".data) ∧
    pop_consistency_hints ([] : List (List Char)) = ([], ([] : List (List Char))) :=
  C6_theorem ("a".data) ("b".data) ("c".data)
    (by decide) (by decide) (by decide) (by decide) (by decide) (by decide)

/-- C7: the hint queue never holds two equal strings — `add_consistency_hint`
leaves the queue unchanged when an exactly equal hint is present, and every
sequence of adds and drains starting from the empty queue yields a
duplicate-free queue. -/
theorem C7_theorem :
    (∀ (h : List Char) (hs : List (List Char)), h ∈ hs → add_consistency_hint h hs = hs) ∧
    (∀ ops : List HOp, (runHints ops).Nodup) := by
  constructor
  · intro h hs hmem
    simp [add_consistency_hint, hmem]
  · have key : ∀ (ops : List HOp) (hs : List (List Char)),
        hs.Nodup → (ops.foldl applyHint hs).Nodup := by
      intro ops
      induction ops with
      | nil => exact fun hs h => h
      | cons op rest ih => exact fun hs h => ih _ (nodup_applyHint hs op h)
    exact fun ops => key ops [] List.nodup_nil

/-- C7 witness: adding an already-present hint is a no-op on a concrete queue. -/
theorem C7_witness : add_consistency_hint ("a".data) [("a".data)] = [("a".data)] :=
  C7_theorem.1 ("a".data) [("a".data)] (by decide)

/-- The compaction loop computes the first-occurrence dedup of its input,
truncated to the remaining capacity, as long as capacity remains. -/
theorem compactLoop_eq (m : Nat) (l : List NoteRec) :
    ∀ (seen : List (List Char)) (acc : List NoteRec), acc.length < m →
      compactLoop m l seen acc = acc ++ (dedupNewestAux l seen).take (m - acc.length) := by
  induction l with
  | nil =>
    intro seen acc h
    simp [compactLoop, dedupNewestAux]
  | cons r rest ih =>
    intro seen acc hacc
    by_cases hk : noteKey r ≠ [] ∧ noteKey r ∉ seen
    · simp only [compactLoop, dedupNewestAux, if_pos hk]
      by_cases hm : m ≤ (acc ++ [r]).length
      · rw [if_pos hm]
        have h1 : m - acc.length = 1 := by simp at hm; omega
        rw [h1, List.take_succ_cons, List.take_zero]
      · rw [if_neg hm]
        have hlt : (acc ++ [r]).length < m := by simp at hm ⊢; omega
        rw [ih (noteKey r :: seen) (acc ++ [r]) hlt]
        have h1 : m - acc.length = (m - (acc ++ [r]).length) + 1 := by simp at hm ⊢; omega
        rw [h1, List.take_succ_cons]
        simp
    · simp only [compactLoop, dedupNewestAux, if_neg hk]
      rw [if_neg (by omega : ¬ m ≤ acc.length)]
      exact ih seen acc hacc

/-- The dedup pass keeps a subsequence of its input. -/
theorem dedupAux_sublist (l : List NoteRec) :
    ∀ seen, List.Sublist (dedupNewestAux l seen) l := by
  induction l with
  | nil =>
    intro seen
    simp [dedupNewestAux]
  | cons r rest ih =>
    intro seen
    simp only [dedupNewestAux]
    split
    · exact List.Sublist.cons₂ r (ih _)
    · exact List.Sublist.cons r (ih _)

/-- Every record kept by the dedup pass has a nonblank key outside `seen`,
and the kept keys are pairwise distinct. -/
theorem dedupAux_keys (l : List NoteRec) :
    ∀ seen, (∀ r ∈ dedupNewestAux l seen, noteKey r ∉ seen ∧ noteKey r ≠ []) ∧
      List.Pairwise (fun x y => noteKey x ≠ noteKey y) (dedupNewestAux l seen) := by
  induction l with
  | nil =>
    intro seen
    simp [dedupNewestAux]
  | cons r rest ih =>
    intro seen
    simp only [dedupNewestAux]
    split
    · rename_i hk
      obtain ⟨hmem, hpw⟩ := ih (noteKey r :: seen)
      refine ⟨?_, ?_⟩
      · intro x hx
        rcases List.mem_cons.mp hx with hx0 | hx'
        · subst hx0
          exact ⟨hk.2, hk.1⟩
        · have hx2 := hmem x hx'
          exact ⟨fun hs => hx2.1 (List.mem_cons_of_mem _ hs), hx2.2⟩
      · refine List.Pairwise.cons ?_ hpw
        intro y hy heq
        exact (hmem y hy).1 (heq ▸ List.mem_cons_self _ _)
    · exact ih seen

/-- Records kept by the compaction loop all carry a nonblank note key. -/
theorem compactLoop_nonblank (m : Nat) (l : List NoteRec) :
    ∀ seen acc, (∀ r ∈ acc, noteKey r ≠ []) →
      ∀ r ∈ compactLoop m l seen acc, noteKey r ≠ [] := by
  induction l with
  | nil =>
    intro seen acc h
    simpa [compactLoop] using h
  | cons r rest ih =>
    intro seen acc hacc
    simp only [compactLoop]
    split
    · rename_i hk
      have hacc2 : ∀ x ∈ acc ++ [r], noteKey x ≠ [] := by
        intro x hx
        rcases List.mem_append.mp hx with hx1 | hx1
        · exact hacc x hx1
        · have hx0 := List.mem_singleton.mp hx1
          subst hx0
          exact hk.1
      split
      · exact hacc2
      · exact ih _ _ hacc2
    · split
      · exact hacc
      · exact ih _ _ hacc

/-- On input whose records all have blank note keys, the compaction loop keeps
nothing beyond its accumulator. -/
theorem compactLoop_blank (m : Nat) (l : List NoteRec) :
    ∀ seen acc, (∀ r ∈ l, noteKey r = []) → compactLoop m l seen acc = acc := by
  induction l with
  | nil =>
    intro seen acc _
    rfl
  | cons r rest ih =>
    intro seen acc hall
    have hr : noteKey r = [] := hall r (List.mem_cons_self _ _)
    simp only [compactLoop]
    rw [if_neg (by simp [hr])]
    split
    · rfl
    · exact ih seen acc (fun x hx => hall x (List.mem_cons_of_mem _ hx))

/-- C5 counterexample: with `max_notes = 0` the loop's break test runs only
after a record has already been kept, so a one-record store still retains one
record — more than `max_notes`. -/
theorem C5_counterexample :
    ¬ ((compact_long_memory
          [⟨some (PyVal.vstr ("x".data)), [], some (PyVal.vint 5), some (PyVal.vint 1)⟩]
          0).length ≤ 0) := by decide

/-- C5 (amended): for every store of records whose note fields are strings (or
absent) and every `max_notes = M ≥ 1`, compaction equals: dedup the reversed
store by first occurrence of each nonblank case-insensitive-trimmed note text
(so each duplicate group keeps its most recent occurrence), truncate to M, and
restore chronological order.  Hence the result has at most M records, pairwise
distinct keys, is a subsequence of the store (original order, records from the
store), and compaction of an empty store is a no-op.  For M = 0 the bound can
be exceeded by one. -/
theorem C5_theorem (store : List NoteRec) (m : Nat) (hm : 1 ≤ m)
    (hwf : ∀ r ∈ store, strNoteB r = true) :
    compact_long_memory store m = ((dedupNewest store.reverse).take m).reverse ∧
    (compact_long_memory store m).length ≤ m ∧
    List.Pairwise (fun x y => noteKey x ≠ noteKey y) (compact_long_memory store m) ∧
    List.Sublist (compact_long_memory store m) store ∧
    compact_long_memory [] m = [] := by
  have heq : compact_long_memory store m = ((dedupNewest store.reverse).take m).reverse := by
    cases store with
    | nil => simp [compact_long_memory, dedupNewest, dedupNewestAux]
    | cons a l =>
      unfold compact_long_memory
      rw [if_neg (by simp)]
      rw [compactLoop_eq m (a :: l).reverse [] [] (by simpa using hm)]
      simp [dedupNewest]
  refine ⟨heq, ?_, ?_, ?_, rfl⟩
  · rw [heq]
    simp only [List.length_reverse, List.length_take]
    exact min_le_left _ _
  · rw [heq, List.pairwise_reverse]
    have htake : List.Pairwise (fun x y => noteKey x ≠ noteKey y)
        ((dedupNewest store.reverse).take m) :=
      List.Pairwise.sublist (List.take_sublist _ _) ((dedupAux_keys store.reverse) []).2
    exact htake.imp fun h => h.symm
  · rw [heq]
    have h1 : List.Sublist ((dedupNewest store.reverse).take m) store.reverse :=
      List.Sublist.trans (List.take_sublist _ _) (dedupAux_sublist store.reverse [])
    simpa using h1.reverse

/-- C5 witness: two records with the same trimmed-lowered note text "x" at
turns 1 and 2; compacting with M = 1 keeps exactly the newest. -/
theorem C5_witness :
    compact_long_memory
        [⟨some (PyVal.vstr ("x".data)), [], some (PyVal.vint 1), some (PyVal.vint 1)⟩,
         ⟨some (PyVal.vstr ("X ".data)), [], some (PyVal.vint 1), some (PyVal.vint 2)⟩] 1 =
      ((dedupNewest
          (List.reverse
            [⟨some (PyVal.vstr ("x".data)), [], some (PyVal.vint 1), some (PyVal.vint 1)⟩,
             ⟨some (PyVal.vstr ("X ".data)), [], some (PyVal.vint 1), some (PyVal.vint 2)⟩])).take
        1).reverse ∧
    (compact_long_memory
        [⟨some (PyVal.vstr ("x".data)), [], some (PyVal.vint 1), some (PyVal.vint 1)⟩,
         ⟨some (PyVal.vstr ("X ".data)), [], some (PyVal.vint 1), some (PyVal.vint 2)⟩] 1).length ≤ 1 ∧
    List.Pairwise (fun x y => noteKey x ≠ noteKey y)
      (compact_long_memory
        [⟨some (PyVal.vstr ("x".data)), [], some (PyVal.vint 1), some (PyVal.vint 1)⟩,
         ⟨some (PyVal.vstr ("X ".data)), [], some (PyVal.vint 1), some (PyVal.vint 2)⟩] 1) ∧
    List.Sublist
      (compact_long_memory
        [⟨some (PyVal.vstr ("x".data)), [], some (PyVal.vint 1), some (PyVal.vint 1)⟩,
         ⟨some (PyVal.vstr ("X ".data)), [], some (PyVal.vint 1), some (PyVal.vint 2)⟩] 1)
      [⟨some (PyVal.vstr ("x".data)), [], some (PyVal.vint 1), some (PyVal.vint 1)⟩,
       ⟨some (PyVal.vstr ("X ".data)), [], some (PyVal.vint 1), some (PyVal.vint 2)⟩] ∧
    compact_long_memory [] 1 = [] :=
  C5_theorem
    [⟨some (PyVal.vstr ("x".data)), [], some (PyVal.vint 1), some (PyVal.vint 1)⟩,
     ⟨some (PyVal.vstr ("X ".data)), [], some (PyVal.vint 1), some (PyVal.vint 2)⟩]
    1 (by decide) (by decide)

/-- C10: `compact_long_memory` drops every record whose note text is empty or
whitespace-only after trimming, for every `max_notes`; in particular a store
holding only blank-note records (e.g. one created by pinning an empty note)
compacts to the empty store. -/
theorem C10_theorem :
    (∀ (store : List NoteRec) (m : Nat), (∀ r ∈ store, strNoteB r = true) →
        ∀ r ∈ compact_long_memory store m, noteKey r ≠ []) ∧
    (∀ (store : List NoteRec) (m : Nat), (∀ r ∈ store, strNoteB r = true) →
        (∀ r ∈ store, noteKey r = []) → compact_long_memory store m = []) := by
  constructor
  · intro store m _ r hr
    cases store with
    | nil => simp [compact_long_memory] at hr
    | cons a l =>
      unfold compact_long_memory at hr
      rw [if_neg (by simp)] at hr
      exact compactLoop_nonblank m (a :: l).reverse [] []
        (fun x hx => absurd hx (List.not_mem_nil x)) r (List.mem_reverse.mp hr)
  · intro store m _ hall
    cases store with
    | nil => rfl
    | cons a l =>
      unfold compact_long_memory
      rw [if_neg (by simp),
        compactLoop_blank m (a :: l).reverse [] []
          (fun x hx => hall x (List.mem_reverse.mp hx))]
      rfl

/-- C10 witness: the store produced by pinning an empty note compacts to the
empty store. -/
theorem C10_witness : compact_long_memory (pin_note [] []) 18 = [] :=
  C10_theorem.2 (pin_note [] []) 18 (by decide) (by decide)

/-- Inserting into a list permutes consing onto it. -/
theorem insertDesc_perm (key : NoteRec → Int × Int) (x : NoteRec) (l : List NoteRec) :
    List.Perm (insertDesc key x l) (x :: l) := by
  induction l with
  | nil => exact List.Perm.refl _
  | cons y ys ih =>
    simp only [insertDesc]
    split
    · exact List.Perm.refl _
    · exact List.Perm.trans (List.Perm.cons y ih) (List.Perm.swap x y ys)

/-- The stable descending sort permutes its input. -/
theorem sortByKeyDesc_perm (key : NoteRec → Int × Int) (l : List NoteRec) :
    List.Perm (sortByKeyDesc key l) l := by
  induction l with
  | nil => exact List.Perm.refl _
  | cons x xs ih =>
    exact List.Perm.trans (insertDesc_perm key x (sortByKeyDesc key xs)) (List.Perm.cons x ih)

/-- The lexicographic key order is total. -/
theorem kLeB_total (a b : Int × Int) : kLeB a b = true ∨ kLeB b a = true := by
  simp only [kLeB, Bool.or_eq_true, Bool.and_eq_true, decide_eq_true_eq]
  omega

/-- The lexicographic key order is transitive. -/
theorem kLeB_trans (a b c : Int × Int) (h1 : kLeB a b = true) (h2 : kLeB b c = true) :
    kLeB a c = true := by
  simp only [kLeB, Bool.or_eq_true, Bool.and_eq_true, decide_eq_true_eq] at h1 h2 ⊢
  omega

/-- Insertion preserves descending sortedness in the key. -/
theorem pairwise_insertDesc (key : NoteRec → Int × Int) (x : NoteRec) (l : List NoteRec)
    (h : List.Pairwise (fun u v => kLeB (key v) (key u) = true) l) :
    List.Pairwise (fun u v => kLeB (key v) (key u) = true) (insertDesc key x l) := by
  induction l with
  | nil => simp [insertDesc]
  | cons y ys ih =>
    obtain ⟨hy, hys⟩ := List.pairwise_cons.mp h
    simp only [insertDesc]
    split
    · rename_i hxy
      refine List.Pairwise.cons ?_ h
      intro z hz
      rcases List.mem_cons.mp hz with hz0 | hz'
      · subst hz0
        exact hxy
      · exact kLeB_trans _ _ _ (hy z hz') hxy
    · rename_i hxy
      have hyx : kLeB (key x) (key y) = true := by
        rcases kLeB_total (key y) (key x) with h1 | h1
        · exact absurd h1 hxy
        · exact h1
      refine List.Pairwise.cons ?_ (ih hys)
      intro z hz
      rcases List.mem_cons.mp ((insertDesc_perm key x ys).subset hz) with hz0 | hz'
      · subst hz0
        exact hyx
      · exact hy z hz'

/-- The stable descending sort is sorted (pairwise ≥ in the key). -/
theorem sortByKeyDesc_sorted (key : NoteRec → Int × Int) (l : List NoteRec) :
    List.Pairwise (fun u v => kLeB (key v) (key u) = true) (sortByKeyDesc key l) := by
  induction l with
  | nil => simp [sortByKeyDesc]
  | cons x xs ih => exact pairwise_insertDesc key x _ ih

/-- C8: in Lightweight mode `recall_relevant` is a rearrangement of the pool
(the most recent 200 records with nonblank note text) that is descending in
the key `rkey` (integer-coerced priority default 1, +1 for a focus-token hit,
+1 for a cue-token hit, tie broken by higher turn), truncated to the top `k`;
the sorted pool is a permutation of the pool and the result holds exactly
`min k |pool|` records.  Determinism holds by construction: the model is a
pure function, as is Python's stable `sorted` on a fixed key. -/
theorem C8_theorem (mem : List NoteRec) (cue : List Char) (focus : List (List Char)) (k : Nat)
    (_hwf : ∀ r ∈ mem, strNoteB r = true) :
    List.Perm (sortByKeyDesc (rkey cue focus) (poolOf mem)) (poolOf mem) ∧
    recall_ranked mem cue focus k = (sortByKeyDesc (rkey cue focus) (poolOf mem)).take k ∧
    List.Pairwise (fun u v => kLeB (rkey cue focus v) (rkey cue focus u) = true)
      (sortByKeyDesc (rkey cue focus) (poolOf mem)) ∧
    (recall_ranked mem cue focus k).length = min k (poolOf mem).length := by
  refine ⟨sortByKeyDesc_perm _ _, rfl, sortByKeyDesc_sorted _ _, ?_⟩
  simp only [recall_ranked, List.length_take]
  rw [(sortByKeyDesc_perm (rkey cue focus) (poolOf mem)).length_eq]

/-- C8 witness: a two-record pool ranked for the cue "dragon". -/
theorem C8_witness :
    List.Perm
      (sortByKeyDesc (rkey ("dragon".data) [])
        (poolOf
          [⟨some (PyVal.vstr ("dragon".data)), [], some (PyVal.vint 2), some (PyVal.vint 1)⟩,
           ⟨some (PyVal.vstr ("key".data)), [], some (PyVal.vint 2), some (PyVal.vint 5)⟩]))
      (poolOf
        [⟨some (PyVal.vstr ("dragon".data)), [], some (PyVal.vint 2), some (PyVal.vint 1)⟩,
         ⟨some (PyVal.vstr ("key".data)), [], some (PyVal.vint 2), some (PyVal.vint 5)⟩]) ∧
    recall_ranked
        [⟨some (PyVal.vstr ("dragon".data)), [], some (PyVal.vint 2), some (PyVal.vint 1)⟩,
         ⟨some (PyVal.vstr ("key".data)), [], some (PyVal.vint 2), some (PyVal.vint 5)⟩]
        ("dragon".data) [] 2 =
      (sortByKeyDesc (rkey ("dragon".data) [])
        (poolOf
          [⟨some (PyVal.vstr ("dragon".data)), [], some (PyVal.vint 2), some (PyVal.vint 1)⟩,
           ⟨some (PyVal.vstr ("key".data)), [], some (PyVal.vint 2), some (PyVal.vint 5)⟩])).take 2 ∧
    List.Pairwise
      (fun u v => kLeB (rkey ("dragon".data) [] v) (rkey ("dragon".data) [] u) = true)
      (sortByKeyDesc (rkey ("dragon".data) [])
        (poolOf
          [⟨some (PyVal.vstr ("dragon".data)), [], some (PyVal.vint 2), some (PyVal.vint 1)⟩,
           ⟨some (PyVal.vstr ("key".data)), [], some (PyVal.vint 2), some (PyVal.vint 5)⟩])) ∧
    (recall_ranked
        [⟨some (PyVal.vstr ("dragon".data)), [], some (PyVal.vint 2), some (PyVal.vint 1)⟩,
         ⟨some (PyVal.vstr ("key".data)), [], some (PyVal.vint 2), some (PyVal.vint 5)⟩]
        ("dragon".data) [] 2).length =
      min 2
        (poolOf
          [⟨some (PyVal.vstr ("dragon".data)), [], some (PyVal.vint 2), some (PyVal.vint 1)⟩,
           ⟨some (PyVal.vstr ("key".data)), [], some (PyVal.vint 2), some (PyVal.vint 5)⟩]).length :=
  C8_theorem
    [⟨some (PyVal.vstr ("dragon".data)), [], some (PyVal.vint 2), some (PyVal.vint 1)⟩,
     ⟨some (PyVal.vstr ("key".data)), [], some (PyVal.vint 2), some (PyVal.vint 5)⟩]
    ("dragon".data) [] 2 (by decide)

end DungeonMemory
